import Mathlib

/-!
Verification of the chatZ conversation core against its specification.

The development shallowly embeds the three logic pieces of the repository:

* the message tree builder (`buildMessageTree` in `ChatArea`), including the
  reply-link inference pass and the streaming graft of the `messageTree`
  memo;
* the stream reconciler transitions of `App` (`handleSendMessage`,
  `handleRetry`);
* the context assembler of `handleNewChat`.

Modelling conventions:

* Message ids are `Int` (the ephemeral streaming node uses the sentinel id
  `-1`, exactly as the source).
* JavaScript truthiness tests on optional numeric fields
  (`!msg.reply_to_id`, `if (lastMessage.reply_to_id)`, `if (activeThreadId)`)
  are modelled by `truthyId`, which is false for an absent value and for `0`.
* `created_at` timestamps are compared in the source via
  `new Date(s).getTime()`; they are modelled directly as `Nat` instants.
* The nested `MessageNode` forest is represented as an arena: the list of
  root ids plus the list of parent/child edges in insertion order.  Node
  objects in the source are shared per id (`messageMap.get`), so node
  identity is id identity and `children` of a node with id `p` is exactly
  the list of edge targets of `p` in order.
* The unbounded JS recursions (`attachToNode` and a depth-first flattening
  of the forest) are given explicit fuel; the fuel is large enough to agree
  with the source on every input on which the source terminates.
-/

/-- The `role` field: the TS type is `'user' | 'assistant'`. -/
inductive Role where
  | user : Role
  | assistant : Role
deriving DecidableEq, Repr

/-- The `Message` record of `types.ts`. -/
structure Message where
  id : Int
  thread_id : Int
  role : Role
  content : String
  images : List String := []
  created_at : Nat
  reply_to_id : Option Int := none
  model : Option String := none
deriving DecidableEq, Repr

/-- The `Thread` record of `types.ts` (fields used by the context assembler). -/
structure Thread where
  id : Int
  title : String
  created_at : Nat
  system_prompt : Option String := none
  is_archived : Bool := false
deriving DecidableEq, Repr

/-- JavaScript truthiness of an optional numeric id: `undefined`, `null` and
`0` are falsy, every other number is truthy. -/
def truthyId : Option Int → Bool
  | none => false
  | some n => n != 0

/-- Test `messageMap.has(r)` after the map has been populated with all (patched)
messages: some message in the list carries id `r`.  Patching never changes
ids, so this is equivalently membership in the original id list. -/
def hasId (l : List Message) (r : Int) : Bool :=
  l.any (fun m => m.id == r)

/-- One step of the reply-link inference pass of `buildMessageTree`
(`ChatArea`): an assistant message with a falsy `reply_to_id` at a positive
index whose predecessor is a user message receives the predecessor's id. -/
def patchOne (orig : List Message) (i : Nat) (m : Message) : Message :=
  if m.role == Role.assistant && !truthyId m.reply_to_id && i != 0 then
    match orig[i - 1]? with
    | some prev =>
        if prev.role == Role.user then { m with reply_to_id := some prev.id } else m
    | none => m
  else m

/-- Index-carrying traversal for the inference pass (`messages.map((m, index) => ...)`). -/
def patchedAux (orig : List Message) : Nat → List Message → List Message
  | _, [] => []
  | i, m :: rest => patchOne orig i m :: patchedAux orig (i + 1) rest

/-- The `patchedMessages` array of `buildMessageTree`. -/
def patchedMessages (messages : List Message) : List Message :=
  patchedAux messages 0 messages

/-- The arena representation of the `MessageNode` forest returned by
`buildMessageTree`: root ids in push order and parent/child edges in push
order.  `children` of id `p` is the ordered list of edge targets of `p`. -/
structure BuiltTree where
  roots : List Int
  edges : List (Int × Int)
deriving DecidableEq, Repr

/-- The tree-assembly loop of `buildMessageTree`: each patched message is
pushed to its parent's children when its `reply_to_id` is truthy and present
in the id map, and to the root list otherwise. -/
def buildStep (patched : List Message) (acc : BuiltTree) (m : Message) : BuiltTree :=
  if truthyId m.reply_to_id && hasId patched (m.reply_to_id.getD 0) then
    { acc with edges := acc.edges ++ [(m.reply_to_id.getD 0, m.id)] }
  else
    { acc with roots := acc.roots ++ [m.id] }

/-- The `buildMessageTree` function of `ChatArea`. -/
def buildMessageTree (messages : List Message) : BuiltTree :=
  let patched := patchedMessages messages
  patched.foldl (buildStep patched) ⟨[], []⟩

/-- The `children` array of the node with id `v`. -/
def childrenOf (edges : List (Int × Int)) (v : Int) : List Int :=
  (edges.filter (fun e => e.1 == v)).map (fun e => e.2)

/-- The recursive `attachToNode` search of the `messageTree` memo: a
depth-first search of the forest for a node with the given id, with explicit
fuel (the source recursion is unbounded; fuel `messages.length + 1` covers
every forest the source can finish searching). -/
def findInForest (edges : List (Int × Int)) : Nat → List Int → Int → Bool
  | 0, _, _ => false
  | fuel + 1, vs, target =>
      vs.any (fun v => v == target || findInForest edges fuel (childrenOf edges v) target)

/-- The `messageTree` memo of `ChatArea`: build the forest, then graft the
ephemeral streaming node (sentinel id `-1`) when a stream is active.  The
graft inspects the *stored* `reply_to_id` of the chronologically last
message; when it is truthy, the streaming node is pushed onto the children
of the node whose id equals the last message's own id (located depth-first),
and onto the root list otherwise. -/
def messageTree (messages : List Message) (isStreaming : Bool)
    (streamingContent : String) : BuiltTree :=
  let t := buildMessageTree messages
  let _ := streamingContent
  if isStreaming then
    match messages.getLast? with
    | some lastMessage =>
        if truthyId lastMessage.reply_to_id then
          if findInForest t.edges (messages.length + 1) t.roots lastMessage.id then
            { t with edges := t.edges ++ [(lastMessage.id, -1)] }
          else
            { t with roots := t.roots ++ [-1] }
        else
          { t with roots := t.roots ++ [-1] }
    | none => { t with roots := t.roots ++ [-1] }
  else t

/-- Depth-first flattening of an arena forest: the ids of the nodes of the
forest in visit order, with explicit fuel (one unit per level of depth). -/
def dfsList (edges : List (Int × Int)) : Nat → List Int → List Int
  | 0, _ => []
  | fuel + 1, vs => vs.flatMap (fun v => v :: dfsList edges fuel (childrenOf edges v))

/-- The multiset of nodes contained in a built forest: every node reachable
from the returned roots, counted once per tree position.  The fuel bounds
the depth by the total number of placements, which covers every forest. -/
def forestNodes (t : BuiltTree) : List Int :=
  dfsList t.edges (t.roots.length + t.edges.length + 1) t.roots

/-- The resolved working parent of a (patched) message: the value the
tree-assembly loop actually attaches it under, `none` when it becomes a
root. -/
def resolvedParent (patched : List Message) (m : Message) : Option Int :=
  if truthyId m.reply_to_id && hasId patched (m.reply_to_id.getD 0) then
    some (m.reply_to_id.getD 0)
  else none

/-- The parent/child relation of the built forest. -/
def childRel (t : BuiltTree) (p c : Int) : Prop := (p, c) ∈ t.edges

/-- Acyclicity of the parent/child relation. -/
def AcyclicTree (t : BuiltTree) : Prop :=
  ∀ v : Int, ¬ Relation.TransGen (childRel t) v v

/-! ### Characterization of the inference pass -/

theorem patchedAux_get? (orig : List Message) (l : List Message) (i k : Nat) :
    (patchedAux orig i l)[k]? = (l[k]?).map (patchOne orig (i + k)) := by
  induction l generalizing i k with
  | nil => simp [patchedAux]
  | cons m rest ih =>
      cases k with
      | zero => simp [patchedAux]
      | succ k =>
          simp only [patchedAux, List.getElem?_cons_succ]
          rw [show i + (k + 1) = i + 1 + k from by omega, ih]

theorem patchedMessages_get? (messages : List Message) (k : Nat) :
    (patchedMessages messages)[k]? = (messages[k]?).map (patchOne messages k) := by
  have h := patchedAux_get? messages messages 0 k
  rwa [Nat.zero_add] at h

theorem patchOne_id (orig : List Message) (i : Nat) (m : Message) :
    (patchOne orig i m).id = m.id := by
  unfold patchOne
  split
  · split
    · split <;> rfl
    · rfl
  · rfl

theorem patchedAux_map_id (orig : List Message) (l : List Message) (i : Nat) :
    (patchedAux orig i l).map Message.id = l.map Message.id := by
  induction l generalizing i with
  | nil => rfl
  | cons m rest ih => simp [patchedAux, patchOne_id, ih]

theorem patchedMessages_map_id (messages : List Message) :
    (patchedMessages messages).map Message.id = messages.map Message.id :=
  patchedAux_map_id messages messages 0

theorem patchedMessages_length (messages : List Message) :
    (patchedMessages messages).length = messages.length := by
  have h := congrArg List.length (patchedMessages_map_id messages)
  rwa [List.length_map, List.length_map] at h

theorem hasId_iff_mem_map (l : List Message) (r : Int) :
    hasId l r = true ↔ r ∈ l.map Message.id := by
  simp only [hasId, List.any_eq_true, beq_iff_eq, List.mem_map]

theorem hasId_patched (messages : List Message) (r : Int) :
    hasId (patchedMessages messages) r = hasId messages r := by
  rw [Bool.eq_iff_iff, hasId_iff_mem_map, hasId_iff_mem_map, patchedMessages_map_id]

/-! ### Characterization of the assembly loop -/

/-- The root picked out of a message by the assembly loop, if any. -/
def rootPick (patched : List Message) (m : Message) : Option Int :=
  match resolvedParent patched m with
  | some _ => none
  | none => some m.id

/-- The edge picked out of a message by the assembly loop, if any. -/
def edgePick (patched : List Message) (m : Message) : Option (Int × Int) :=
  (resolvedParent patched m).map (fun r => (r, m.id))

theorem resolvedParent_eq_some {patched : List Message} {m : Message}
    (h : (truthyId m.reply_to_id && hasId patched (m.reply_to_id.getD 0)) = true) :
    resolvedParent patched m = some (m.reply_to_id.getD 0) := by
  unfold resolvedParent
  rw [h]
  rfl

theorem resolvedParent_eq_none {patched : List Message} {m : Message}
    (h : (truthyId m.reply_to_id && hasId patched (m.reply_to_id.getD 0)) = false) :
    resolvedParent patched m = none := by
  unfold resolvedParent
  rw [h]
  rfl

theorem foldl_buildStep (patched : List Message) (l : List Message) (acc : BuiltTree) :
    l.foldl (buildStep patched) acc =
      ⟨acc.roots ++ l.filterMap (rootPick patched),
       acc.edges ++ l.filterMap (edgePick patched)⟩ := by
  induction l generalizing acc with
  | nil => simp
  | cons m rest ih =>
      rw [List.foldl_cons]
      cases h : (truthyId m.reply_to_id && hasId patched (m.reply_to_id.getD 0)) with
      | true =>
          have hb : buildStep patched acc m =
              { acc with edges := acc.edges ++ [(m.reply_to_id.getD 0, m.id)] } := by
            unfold buildStep
            rw [h]
            rfl
          have h1 : rootPick patched m = none := by
            unfold rootPick
            rw [resolvedParent_eq_some h]
          have h2 : edgePick patched m = some (m.reply_to_id.getD 0, m.id) := by
            unfold edgePick
            rw [resolvedParent_eq_some h]
            rfl
          rw [hb, ih]
          simp [h1, h2]
      | false =>
          have hb : buildStep patched acc m =
              { acc with roots := acc.roots ++ [m.id] } := by
            unfold buildStep
            rw [h]
            rfl
          have h1 : rootPick patched m = some m.id := by
            unfold rootPick
            rw [resolvedParent_eq_none h]
          have h2 : edgePick patched m = none := by
            unfold edgePick
            rw [resolvedParent_eq_none h]
            rfl
          rw [hb, ih]
          simp [h1, h2]

theorem buildMessageTree_eq (messages : List Message) :
    buildMessageTree messages =
      ⟨(patchedMessages messages).filterMap (rootPick (patchedMessages messages)),
       (patchedMessages messages).filterMap (edgePick (patchedMessages messages))⟩ := by
  unfold buildMessageTree
  rw [foldl_buildStep]
  simp

theorem mem_edges_iff (messages : List Message) (e : Int × Int) :
    e ∈ (buildMessageTree messages).edges ↔
      ∃ m ∈ patchedMessages messages,
        resolvedParent (patchedMessages messages) m = some e.1 ∧ m.id = e.2 := by
  rw [buildMessageTree_eq]
  simp only [List.mem_filterMap, edgePick]
  constructor
  · rintro ⟨m, hm, he⟩
    cases ho : resolvedParent (patchedMessages messages) m with
    | none =>
        rw [ho] at he
        exact absurd he (by simp)
    | some r =>
        rw [ho] at he
        have hre : (r, m.id) = e := by
          simpa using he
        subst hre
        exact ⟨m, hm, ho, rfl⟩
  · rintro ⟨m, hm, hr, hid⟩
    refine ⟨m, hm, ?_⟩
    rw [hr]
    simp [hid]

theorem mem_roots_of_unresolved (messages : List Message) (m : Message)
    (hm : m ∈ patchedMessages messages)
    (h : resolvedParent (patchedMessages messages) m = none) :
    m.id ∈ (buildMessageTree messages).roots := by
  rw [buildMessageTree_eq]
  simp only [List.mem_filterMap]
  exact ⟨m, hm, by simp [rootPick, h]⟩

/-- Each message is placed exactly once: the root list and the list of edge
targets together are a permutation of the (patched) id list. -/
theorem placed_perm_aux (patched : List Message) (l : List Message) :
    (l.filterMap (rootPick patched) ++
      (l.filterMap (edgePick patched)).map Prod.snd).Perm (l.map Message.id) := by
  induction l with
  | nil => simp
  | cons m rest ih =>
      cases h : resolvedParent patched m with
      | none =>
          have h1 : rootPick patched m = some m.id := by
            unfold rootPick
            rw [h]
          have h2 : edgePick patched m = none := by
            unfold edgePick
            rw [h]
            rfl
          simp only [List.filterMap_cons, h1, h2, List.map_cons, List.cons_append]
          exact ih.cons m.id
      | some r =>
          have h1 : rootPick patched m = none := by
            unfold rootPick
            rw [h]
          have h2 : edgePick patched m = some (r, m.id) := by
            unfold edgePick
            rw [h]
            rfl
          simp only [List.filterMap_cons, h1, h2, List.map_cons]
          exact List.Perm.trans List.perm_middle (ih.cons m.id)

theorem placed_perm (messages : List Message) :
    ((buildMessageTree messages).roots ++
      ((buildMessageTree messages).edges.map Prod.snd)).Perm
      (messages.map Message.id) := by
  rw [buildMessageTree_eq]
  simpa [patchedMessages_map_id] using
    placed_perm_aux (patchedMessages messages) (patchedMessages messages)

/-! ### A counting argument for depth-first traversal of an arena forest

The lemmas below are stated for an arbitrary edge list together with an
arbitrary position function `pos` that strictly increases along edges (in
the instantiation, `pos` is the index of a message in the input list and
the sentinel node sits past the end).  Under unique placement they show
that a depth-first traversal from the roots visits every placed node
exactly once. -/

/-- The unique in-edge source of `w`, if any (each node is pushed into at
most one `children` array when placements are unique). -/
def parentOf (edges : List (Int × Int)) (w : Int) : Option Int :=
  (edges.find? (fun e => e.2 == w)).map (fun e => e.1)

/-- Does the parent chain starting at `w` pass through `v` within `fuel`
steps? -/
def inTree (edges : List (Int × Int)) : Nat → Int → Int → Bool
  | 0, v, w => v == w
  | fuel + 1, v, w =>
      v == w ||
        (match parentOf edges w with
         | some p => inTree edges fuel v p
         | none => false)

theorem parentOf_mem {edges : List (Int × Int)} {w p : Int}
    (h : parentOf edges w = some p) : (p, w) ∈ edges := by
  unfold parentOf at h
  cases hf : edges.find? (fun e => e.2 == w) with
  | none => rw [hf] at h; exact absurd h (by simp)
  | some e =>
      rw [hf] at h
      have hm := List.mem_of_find?_eq_some hf
      have hp := List.find?_some hf
      have h2 : e.2 = w := by simpa using hp
      have h1 : e.1 = p := by simpa using h
      have : e = (p, w) := by
        cases e
        simp_all
      rwa [this] at hm

theorem parentOf_eq_none_iff {edges : List (Int × Int)} {w : Int} :
    parentOf edges w = none ↔ ∀ e ∈ edges, e.2 ≠ w := by
  unfold parentOf
  simp [List.find?_eq_none]

theorem parentOf_eq_none_of_not_mem_snd {edges : List (Int × Int)} {w : Int}
    (h : w ∉ edges.map Prod.snd) : parentOf edges w = none := by
  rw [parentOf_eq_none_iff]
  intro e he hew
  exact h (hew ▸ List.mem_map_of_mem Prod.snd he)

theorem mem_snd_of_parentOf_some {edges : List (Int × Int)} {w p : Int}
    (h : parentOf edges w = some p) : w ∈ edges.map Prod.snd :=
  List.mem_map_of_mem Prod.snd (parentOf_mem h)

theorem inTree_self (edges : List (Int × Int)) (fuel : Nat) (v : Int) :
    inTree edges fuel v v = true := by
  cases fuel <;> simp [inTree]

theorem inTree_of_parent_none {edges : List (Int × Int)} {w : Int}
    (h : parentOf edges w = none) (fuel : Nat) (v : Int) :
    inTree edges fuel v w = (v == w) := by
  cases fuel with
  | zero => rfl
  | succ fuel => simp [inTree, h]

theorem inTree_succ_of_parent {edges : List (Int × Int)} {w p : Int}
    (h : parentOf edges w = some p) (fuel : Nat) (v : Int) :
    inTree edges (fuel + 1) v w = ((v == w) || inTree edges fuel v p) := by
  simp [inTree, h]

theorem mem_childrenOf_iff {edges : List (Int × Int)} {v c : Int} :
    c ∈ childrenOf edges v ↔ (v, c) ∈ edges := by
  unfold childrenOf
  simp only [List.mem_map, List.mem_filter, beq_iff_eq]
  constructor
  · rintro ⟨e, ⟨he, h1⟩, h2⟩
    have : e = (v, c) := by
      cases e
      simp_all
    rwa [this] at he
  · intro h
    exact ⟨(v, c), ⟨h, rfl⟩, rfl⟩

theorem childrenOf_sublist_snd (edges : List (Int × Int)) (v : Int) :
    (childrenOf edges v).Sublist (edges.map Prod.snd) :=
  (List.filter_sublist edges).map Prod.snd

/-- Unique in-edges: under a duplicate-free target list, the parent found by
`parentOf` is the only one. -/
theorem in_edge_unique {edges : List (Int × Int)}
    (hsnd : (edges.map Prod.snd).Nodup) {w p q : Int}
    (hp : (p, w) ∈ edges) (hq : (q, w) ∈ edges) : p = q := by
  have := List.inj_on_of_nodup_map hsnd hp hq rfl
  exact congrArg Prod.fst this

/-- Along forward edges, a chain starting at `w` never reaches a node with a
strictly larger position. -/
theorem no_descent {edges : List (Int × Int)} {pos : Int → Nat}
    (hfwd : ∀ e ∈ edges, pos e.1 < pos e.2) :
    ∀ fuel (w c : Int), pos w < pos c → inTree edges fuel c w = false := by
  intro fuel
  induction fuel with
  | zero =>
      intro w c h
      exact beq_eq_false_iff_ne.mpr (fun hc => by rw [hc] at h; omega)
  | succ fuel ih =>
      intro w c h
      have hne : (c == w) = false :=
        beq_eq_false_iff_ne.mpr (fun hc => by rw [hc] at h; omega)
      cases hp : parentOf edges w with
      | none => simp [inTree, hp, hne]
      | some p =>
          have hlt : pos p < pos w := hfwd _ (parentOf_mem hp)
          simp [inTree, hp, hne, ih p c (by omega)]

/-- Chains are stable: `inTree` is unchanged once the fuel dominates the position of the start. -/
theorem inTree_stable {edges : List (Int × Int)} {pos : Int → Nat}
    (hfwd : ∀ e ∈ edges, pos e.1 < pos e.2) :
    ∀ fuel (v w : Int), pos w ≤ fuel →
      inTree edges fuel v w = inTree edges (fuel + 1) v w := by
  intro fuel
  induction fuel with
  | zero =>
      intro v w h
      cases hp : parentOf edges w with
      | none => rw [inTree_of_parent_none hp, inTree_of_parent_none hp]
      | some p =>
          have hlt : pos p < pos w := hfwd _ (parentOf_mem hp)
          omega
  | succ fuel ih =>
      intro v w h
      cases hp : parentOf edges w with
      | none => rw [inTree_of_parent_none hp, inTree_of_parent_none hp]
      | some p =>
          have hlt : pos p < pos w := hfwd _ (parentOf_mem hp)
          rw [inTree_succ_of_parent hp, inTree_succ_of_parent hp,
            ih v p (by omega)]

theorem inTree_stable_ge {edges : List (Int × Int)} {pos : Int → Nat}
    (hfwd : ∀ e ∈ edges, pos e.1 < pos e.2) {f₁ f₂ : Nat} (v w : Int)
    (hw : pos w ≤ f₁) (hle : f₁ ≤ f₂) :
    inTree edges f₁ v w = inTree edges f₂ v w := by
  induction f₂, hle using Nat.le_induction with
  | base => rfl
  | succ n hn ih => rw [ih, inTree_stable hfwd n v w (by omega)]

/-- Pointwise counting when the target has no in-edge: a node's tree
position contributes to the count of `w` exactly when the chain from `w`
stops there. -/
theorem point_count_parent_none {edges : List (Int × Int)} {w : Int}
    (hp : parentOf edges w = none) (f : Nat) (v : Int) :
    ((if v == w then 1 else 0) +
        (childrenOf edges v).countP (fun c => inTree edges f c w))
      = (if inTree edges f v w then 1 else 0) := by
  rw [inTree_of_parent_none hp]
  have h0 : (childrenOf edges v).countP (fun c => inTree edges f c w) = 0 := by
    apply List.countP_eq_zero.mpr
    intro c hc
    rw [inTree_of_parent_none hp]
    have hcw : c ≠ w := by
      intro hcw
      subst hcw
      exact (parentOf_eq_none_iff.mp hp) _ (mem_childrenOf_iff.mp hc) rfl
    simp [hcw]
  rw [h0]
  omega

/-- Pointwise counting: the contribution of one tree position `v` (itself
plus its child subtrees) to the multiplicity of `w` is `1` exactly when the
parent chain from `w` passes through `v`. -/
theorem point_count {edges : List (Int × Int)} {pos : Int → Nat}
    (hfwd : ∀ e ∈ edges, pos e.1 < pos e.2)
    (hsnd : (edges.map Prod.snd).Nodup) :
    ∀ f (w v : Int), pos w < f →
      ((if v == w then 1 else 0) +
          (childrenOf edges v).countP (fun c => inTree edges f c w))
        = (if inTree edges f v w then 1 else 0) := by
  intro f
  induction f with
  | zero => intro w v h; omega
  | succ g ih =>
      intro w v h
      cases hp : parentOf edges w with
      | none => exact point_count_parent_none hp (g + 1) v
      | some p =>
          have hpw : (p, w) ∈ edges := parentOf_mem hp
          have hppos : pos p < pos w := hfwd _ hpw
          by_cases hvw : v = w
          · subst hvw
            rw [if_pos (by simp), if_pos (inTree_self edges (g + 1) v)]
            have h0 : (childrenOf edges v).countP (fun c => inTree edges (g + 1) c v) = 0 := by
              apply List.countP_eq_zero.mpr
              intro c hc
              have hvc : pos v < pos c := hfwd _ (mem_childrenOf_iff.mp hc)
              simp [no_descent hfwd (g + 1) v c hvc]
            omega
          · rw [if_neg (by simp [hvw])]
            by_cases hpv : p = v
            · subst hpv
              have hwmem : w ∈ childrenOf edges p := mem_childrenOf_iff.mpr hpw
              have hnodup : (childrenOf edges p).Nodup :=
                hsnd.sublist (childrenOf_sublist_snd edges p)
              have hcount : (childrenOf edges p).countP (fun c => inTree edges (g + 1) c w) =
                  (childrenOf edges p).countP (fun c => c == w) := by
                apply List.countP_congr
                intro c hc
                by_cases hcw : c = w
                · subst hcw
                  simp [inTree_self]
                · have hpc : pos p < pos c := hfwd _ (mem_childrenOf_iff.mp hc)
                  rw [inTree_succ_of_parent hp, no_descent hfwd g p c hpc]
                  simp [hcw]
              rw [hcount]
              have hone : (childrenOf edges p).countP (fun c => c == w) = 1 :=
                List.count_eq_one_of_mem hnodup hwmem
              rw [hone, inTree_succ_of_parent hp]
              simp [inTree_self]
            · have hcount : (childrenOf edges v).countP (fun c => inTree edges (g + 1) c w) =
                  (childrenOf edges v).countP (fun c => inTree edges g c p) := by
                apply List.countP_congr
                intro c hc
                have hcw : (c == w) = false := by
                  apply beq_eq_false_iff_ne.mpr
                  intro hcw
                  subst hcw
                  exact hpv (in_edge_unique hsnd hpw (mem_childrenOf_iff.mp hc))
                rw [inTree_succ_of_parent hp, hcw, Bool.false_or]
              rw [hcount]
              have hih := ih p v (by omega)
              rw [if_neg (by simp; intro hvp; exact hpv hvp.symm)] at hih
              rw [inTree_succ_of_parent hp,
                show (v == w) = false from beq_eq_false_iff_ne.mpr hvw, Bool.false_or]
              omega

/-- The multiplicity of any id in the depth-first traversal equals the
number of traversal starting points through which its parent chain passes. -/
theorem dfs_count {edges : List (Int × Int)} {pos : Int → Nat} {N : Nat}
    (hfwd : ∀ e ∈ edges, pos e.1 < pos e.2)
    (hsnd : (edges.map Prod.snd).Nodup)
    (hbe : ∀ c ∈ edges.map Prod.snd, pos c < N) :
    ∀ fuel (vs : List Int), (∀ v ∈ vs, pos v < N) → (∀ v ∈ vs, N ≤ fuel + pos v) →
      ∀ w, (dfsList edges fuel vs).count w = vs.countP (fun v => inTree edges N v w) := by
  intro fuel
  induction fuel with
  | zero =>
      intro vs h1 h2 w
      have hnil : vs = [] := by
        cases vs with
        | nil => rfl
        | cons v rest =>
            have ha := h1 v (by simp)
            have hb := h2 v (by simp)
            omega
      subst hnil
      simp [dfsList]
  | succ fuel ih =>
      intro vs
      induction vs with
      | nil =>
          intro h1 h2 w
          simp [dfsList]
      | cons v rest ihv =>
          intro h1 h2 w
          have hsplit : dfsList edges (fuel + 1) (v :: rest) =
              (v :: dfsList edges fuel (childrenOf edges v)) ++ dfsList edges (fuel + 1) rest := by
            simp [dfsList]
          rw [hsplit, List.count_append, List.count_cons]
          have hchild := ih (childrenOf edges v)
            (fun c hc => hbe c ((childrenOf_sublist_snd edges v).subset hc))
            (fun c hc => by
              have hvc : pos v < pos c := hfwd _ (mem_childrenOf_iff.mp hc)
              have hv2 := h2 v (by simp)
              omega)
            w
          rw [hchild,
            ihv (fun x hx => h1 x (by simp [hx])) (fun x hx => h2 x (by simp [hx])),
            List.countP_cons]
          by_cases hw : w ∈ edges.map Prod.snd
          · have hpoint := point_count hfwd hsnd N w v (hbe w hw)
            simp only [beq_iff_eq] at hpoint ⊢
            omega
          · have hpoint := point_count_parent_none
              (parentOf_eq_none_of_not_mem_snd hw) N v
            simp only [beq_iff_eq] at hpoint ⊢
            omega

/-- When the target has no in-edge, the chain from it stops immediately, so
its root count is its multiplicity among the roots. -/
theorem root_count_parent_none {roots : List Int} {edges : List (Int × Int)}
    {w : Int} (hnd : (roots ++ edges.map Prod.snd).Nodup)
    (hp : parentOf edges w = none) (N : Nat)
    (hmem : w ∈ roots ++ edges.map Prod.snd) :
    roots.countP (fun r => inTree edges N r w) = 1 := by
  have hwr : w ∈ roots := by
    rcases List.mem_append.mp hmem with h | h
    · exact h
    · rcases List.mem_map.mp h with ⟨e, he, hew⟩
      exact absurd hew ((parentOf_eq_none_iff.mp hp) _ he)
  have hcong : roots.countP (fun r => inTree edges N r w) =
      roots.countP (fun r => r == w) := by
    apply List.countP_congr
    intro r _
    rw [inTree_of_parent_none hp]
  rw [hcong]
  exact List.count_eq_one_of_mem hnd.of_append_left hwr

/-- Every placed node's parent chain reaches exactly one root. -/
theorem root_count {roots : List Int} {edges : List (Int × Int)}
    {pos : Int → Nat} {N : Nat}
    (hfwd : ∀ e ∈ edges, pos e.1 < pos e.2)
    (hnd : (roots ++ edges.map Prod.snd).Nodup)
    (hpar : ∀ e ∈ edges, e.1 ∈ roots ++ edges.map Prod.snd)
    (hbound : ∀ v ∈ roots ++ edges.map Prod.snd, pos v < N) :
    ∀ n (w : Int), pos w ≤ n → w ∈ roots ++ edges.map Prod.snd →
      roots.countP (fun r => inTree edges N r w) = 1 := by
  have hsnd : (edges.map Prod.snd).Nodup := hnd.of_append_right
  intro n
  induction n with
  | zero =>
      intro w hw hmem
      cases hp : parentOf edges w with
      | none => exact root_count_parent_none hnd hp N hmem
      | some p =>
          have hlt : pos p < pos w := hfwd _ (parentOf_mem hp)
          omega
  | succ n ih =>
      intro w hw hmem
      cases hp : parentOf edges w with
      | none => exact root_count_parent_none hnd hp N hmem
      | some p =>
          have hpw := parentOf_mem hp
          have hppos : pos p < pos w := hfwd _ hpw
          have hwsnd : w ∈ edges.map Prod.snd := mem_snd_of_parentOf_some hp
          have hwN : pos w < N := hbound w hmem
          have hdisj := List.disjoint_of_nodup_append hnd
          have hwroots : w ∉ roots := fun hr => hdisj hr hwsnd
          obtain ⟨g, rfl⟩ : ∃ g, N = g + 1 := ⟨N - 1, by omega⟩
          have hcong : roots.countP (fun r => inTree edges (g + 1) r w) =
              roots.countP (fun r => inTree edges (g + 1) r p) := by
            apply List.countP_congr
            intro r hr
            have hrw : (r == w) = false :=
              beq_eq_false_iff_ne.mpr (fun hrw => hwroots (hrw ▸ hr))
            rw [inTree_succ_of_parent hp, hrw, Bool.false_or,
              inTree_stable_ge hfwd r p (by omega) (Nat.le_succ g)]
          rw [hcong]
          exact ih p (by omega) (hpar _ hpw)

/-- Main traversal theorem: under unique placement, forward edges and
placed parents, a depth-first traversal from the roots with sufficient fuel
is a permutation of all placements (each node once). -/
theorem dfsList_perm (pos : Int → Nat) (N : Nat)
    {roots : List Int} {edges : List (Int × Int)}
    (hnd : (roots ++ edges.map Prod.snd).Nodup)
    (hfwd : ∀ e ∈ edges, pos e.1 < pos e.2)
    (hpar : ∀ e ∈ edges, e.1 ∈ roots ++ edges.map Prod.snd)
    (hbound : ∀ v ∈ roots ++ edges.map Prod.snd, pos v < N)
    {fuel : Nat} (hfuel : N ≤ fuel) :
    (dfsList edges fuel roots).Perm (roots ++ edges.map Prod.snd) := by
  rw [List.perm_iff_count]
  intro w
  have hsnd : (edges.map Prod.snd).Nodup := hnd.of_append_right
  rw [dfs_count hfwd hsnd (fun c hc => hbound c (List.mem_append_right _ hc)) fuel roots
    (fun v hv => hbound v (List.mem_append_left _ hv))
    (fun v hv => by omega) w]
  by_cases hw : w ∈ roots ++ edges.map Prod.snd
  · rw [root_count hfwd hnd hpar hbound (pos w) w le_rfl hw,
      List.count_eq_one_of_mem hnd hw]
  · rw [List.count_eq_zero_of_not_mem hw]
    apply List.countP_eq_zero.mpr
    intro r hr
    have hp : parentOf edges w = none :=
      parentOf_eq_none_of_not_mem_snd (fun hs => hw (List.mem_append_right _ hs))
    rw [inTree_of_parent_none hp]
    have hrw : r ≠ w := fun h => hw (List.mem_append_left _ (h ▸ hr))
    simp [hrw]

/-! ### Instantiation for the built message forest -/

/-- Executable check that every resolved reply link (after the inference
pass) points to a message occurring strictly earlier in the list. -/
def forwardLinksB (l : List Message) : Bool :=
  (List.range l.length).all (fun i =>
    match l[i]? with
    | none => true
    | some m =>
      match resolvedParent l m with
      | none => true
      | some r =>
          (List.range i).any (fun j =>
            match l[j]? with
            | none => false
            | some x => x.id == r))

theorem forwardLinksB_spec {l : List Message} (h : forwardLinksB l = true)
    {i : Nat} {m : Message} (hi : l[i]? = some m) {r : Int}
    (hr : resolvedParent l m = some r) :
    ∃ j, j < i ∧ ∃ x, l[j]? = some x ∧ x.id = r := by
  unfold forwardLinksB at h
  rw [List.all_eq_true] at h
  have hilen : i < l.length := (List.getElem?_eq_some_iff.mp hi).1
  have hh := h i (List.mem_range.mpr hilen)
  simp only [hi, hr] at hh
  rw [List.any_eq_true] at hh
  obtain ⟨j, hj, hx⟩ := hh
  rw [List.mem_range] at hj
  cases hxj : l[j]? with
  | none =>
      rw [hxj] at hx
      exact absurd hx (by simp)
  | some x =>
      rw [hxj] at hx
      exact ⟨j, hj, x, hxj, by simpa using hx⟩

/-- The position of an id for the traversal argument: its index among the
input ids, with the streaming sentinel placed one past the end. -/
def posId (messages : List Message) (v : Int) : Nat :=
  (messages.map Message.id ++ [-1]).indexOf v

theorem posId_neg_one (messages : List Message)
    (hs : (-1 : Int) ∉ messages.map Message.id) :
    posId messages (-1) = messages.length := by
  unfold posId
  rw [List.indexOf_append_of_not_mem hs]
  simp [List.indexOf_cons_self]

theorem posId_lt_of_mem {messages : List Message} {v : Int}
    (h : v ∈ messages.map Message.id) : posId messages v < messages.length := by
  unfold posId
  rw [List.indexOf_append_of_mem h]
  have := List.indexOf_lt_length.mpr h
  simpa using this

theorem resolvedParent_some_hasId {l : List Message} {m : Message} {r : Int}
    (h : resolvedParent l m = some r) : hasId l r = true := by
  unfold resolvedParent at h
  cases hc : (truthyId m.reply_to_id && hasId l (m.reply_to_id.getD 0)) with
  | false =>
      rw [hc] at h
      exact absurd h (by simp)
  | true =>
      rw [hc] at h
      simp only [if_true] at h
      have hr : m.reply_to_id.getD 0 = r := by simpa using h
      rw [← hr]
      exact (Bool.and_eq_true _ _ |>.mp hc).2

theorem built_edge_fst_mem {messages : List Message} {e : Int × Int}
    (he : e ∈ (buildMessageTree messages).edges) :
    e.1 ∈ messages.map Message.id := by
  obtain ⟨m, hm, hr, _⟩ := (mem_edges_iff messages e).mp he
  have := resolvedParent_some_hasId hr
  rw [hasId_patched] at this
  exact (hasId_iff_mem_map messages e.1).mp this

theorem built_edge_snd_mem {messages : List Message} {e : Int × Int}
    (he : e ∈ (buildMessageTree messages).edges) :
    e.2 ∈ messages.map Message.id := by
  obtain ⟨m, hm, _, hid⟩ := (mem_edges_iff messages e).mp he
  rw [← patchedMessages_map_id, ← hid]
  exact List.mem_map_of_mem Message.id hm

theorem built_root_mem {messages : List Message} {v : Int}
    (hv : v ∈ (buildMessageTree messages).roots) :
    v ∈ messages.map Message.id := by
  rw [buildMessageTree_eq] at hv
  simp only [List.mem_filterMap] at hv
  obtain ⟨m, hm, hp⟩ := hv
  cases h : resolvedParent (patchedMessages messages) m with
  | some r =>
      unfold rootPick at hp
      rw [h] at hp
      exact absurd hp (by simp)
  | none =>
      unfold rootPick at hp
      rw [h] at hp
      have : m.id = v := by simpa using hp
      rw [← patchedMessages_map_id, ← this]
      exact List.mem_map_of_mem Message.id hm

/-- The index of an id in the (duplicate-free) id list through a `getElem?`
fact. -/
theorem posId_of_getElem? {messages : List Message} {j : Nat} {y : Int}
    (hnd : (messages.map Message.id).Nodup)
    (hy : (messages.map Message.id)[j]? = some y) : posId messages y = j := by
  obtain ⟨hjl, hget⟩ := List.getElem?_eq_some_iff.mp hy
  unfold posId
  have hmem : y ∈ messages.map Message.id := by
    rw [← hget]
    exact List.getElem_mem hjl
  rw [List.indexOf_append_of_mem hmem, ← hget]
  exact List.indexOf_getElem hnd j hjl

/-- Every edge of the built forest strictly increases the input position:
the parent resolves to an earlier message. -/
theorem built_edges_forward (messages : List Message)
    (hnd : (messages.map Message.id).Nodup)
    (hfl : forwardLinksB (patchedMessages messages) = true) :
    ∀ e ∈ (buildMessageTree messages).edges,
      posId messages e.1 < posId messages e.2 := by
  intro e he
  obtain ⟨m, hm, hr, hid⟩ := (mem_edges_iff messages e).mp he
  obtain ⟨i, hgi⟩ := List.mem_iff_get.mp hm
  have hi : (patchedMessages messages)[i.val]? = some m := by
    rw [List.getElem?_eq_getElem i.isLt]
    exact congrArg some hgi
  obtain ⟨j, hji, x, hxj, hxid⟩ := forwardLinksB_spec hfl hi hr
  have hids : (patchedMessages messages).map Message.id = messages.map Message.id :=
    patchedMessages_map_id messages
  have h2 : posId messages e.2 = i.val := by
    apply posId_of_getElem? hnd
    rw [← hids]
    rw [List.getElem?_map, hi]
    simp [hid]
  have h1 : posId messages e.1 = j := by
    apply posId_of_getElem? hnd
    rw [← hids]
    rw [List.getElem?_map, hxj]
    simp [hxid]
  omega

/-! ### Claim C2: acyclicity -/

/-- C2 (amended) — for every input whose message ids are pairwise distinct
and whose resolved reply links (after the inference pass) each point to an
earlier message in the list, the parent/child relation of the forest
produced by `buildMessageTree` is acyclic.  (The unrestricted claim is
refuted by `buildMessageTree_cycle_counterexample`: messages forming a
`reply_to_id` cycle are attached to each other cyclically.) -/
theorem buildMessageTree_acyclic (messages : List Message)
    (hnd : (messages.map Message.id).Nodup)
    (hfl : forwardLinksB (patchedMessages messages) = true) :
    AcyclicTree (buildMessageTree messages) := by
  intro v hv
  have hfwd := built_edges_forward messages hnd hfl
  have hmono : ∀ a b : Int, Relation.TransGen (childRel (buildMessageTree messages)) a b →
      posId messages a < posId messages b := by
    intro a b h
    induction h with
    | single h => exact hfwd _ h
    | tail _ e ih => exact Nat.lt_trans ih (hfwd _ e)
  have := hmono v v hv
  omega

/-- A single message that names itself as its reply target. -/
def cycMsg : Message :=
  { id := 1, thread_id := 1, role := Role.user, content := "x", created_at := 0,
    reply_to_id := some 1 }

/-- C2 (counterexample) — on the input consisting of one message whose
`reply_to_id` is its own id, the builder pushes the node into its own
children array: the parent/child relation has a cycle, refuting the claim
that `build` is acyclic for any input including adversarial `reply_to_id`
cycles. -/
theorem buildMessageTree_cycle_counterexample :
    ¬ AcyclicTree (buildMessageTree [cycMsg]) := by
  intro h
  apply h 1
  apply Relation.TransGen.single
  show (1, 1) ∈ (buildMessageTree [cycMsg]).edges
  decide

/-- C2 witness for the amended theorem at a concrete input. -/
theorem buildMessageTree_acyclic_witness :
    AcyclicTree (buildMessageTree
      [{ id := 1, thread_id := 1, role := Role.user, content := "Hi", created_at := 0 },
       { id := 2, thread_id := 1, role := Role.assistant, content := "Hello",
         created_at := 1, reply_to_id := some 1 }]) :=
  buildMessageTree_acyclic _ (by decide) (by decide)

/-! ### Claim C1: completeness of the forest -/

theorem mem_of_getLast?_eq_some {l : List Message} {a : Message}
    (h : l.getLast? = some a) : a ∈ l := by
  obtain ⟨hne, hx⟩ := List.mem_getLast?_eq_getLast (Option.mem_def.mpr h)
  rw [hx]
  exact List.getLast_mem hne

/-- The grafted tree has one of two shapes: the sentinel appended to the
roots, or one extra edge from the last message's id to the sentinel. -/
theorem messageTree_true_shape (messages : List Message) (content : String) :
    messageTree messages true content =
        ⟨(buildMessageTree messages).roots ++ [-1], (buildMessageTree messages).edges⟩ ∨
      (∃ lm, messages.getLast? = some lm ∧
        messageTree messages true content =
          ⟨(buildMessageTree messages).roots,
           (buildMessageTree messages).edges ++ [(lm.id, -1)]⟩) := by
  cases hl : messages.getLast? with
  | none =>
      left
      simp [messageTree, hl]
  | some lm =>
      by_cases ht : truthyId lm.reply_to_id = true
      · by_cases hf : findInForest (buildMessageTree messages).edges (messages.length + 1)
            (buildMessageTree messages).roots lm.id = true
        · right
          exact ⟨lm, rfl, by simp [messageTree, hl, ht, hf]⟩
        · left
          simp [messageTree, hl, ht, hf]
      · left
        simp [messageTree, hl, ht]

theorem placed_count (messages : List Message) :
    (buildMessageTree messages).roots.length + (buildMessageTree messages).edges.length
      = messages.length := by
  have h := (placed_perm messages).length_eq
  rw [List.length_append, List.length_map, List.length_map] at h
  exact h

theorem ids_sentinel_nodup {messages : List Message}
    (hnd : (messages.map Message.id).Nodup)
    (hs : (-1 : Int) ∉ messages.map Message.id) :
    ((messages.map Message.id) ++ [-1]).Nodup := by
  refine List.Nodup.append hnd (by simp) ?_
  intro a ha hb
  simp only [List.mem_singleton] at hb
  subst hb
  exact hs ha

theorem posId_bound {messages : List Message}
    (hs : (-1 : Int) ∉ messages.map Message.id) :
    ∀ v ∈ messages.map Message.id ++ [-1], posId messages v < messages.length + 1 := by
  intro v hv
  rcases List.mem_append.mp hv with h | h
  · have := posId_lt_of_mem h
    omega
  · simp only [List.mem_singleton] at h
    subst h
    rw [posId_neg_one messages hs]
    omega

/-- Grafting the sentinel as an additional root preserves completeness. -/
theorem graft_root_perm (messages : List Message)
    (hnd : (messages.map Message.id).Nodup)
    (hs : (-1 : Int) ∉ messages.map Message.id)
    (hfl : forwardLinksB (patchedMessages messages) = true) :
    (forestNodes ⟨(buildMessageTree messages).roots ++ [-1],
        (buildMessageTree messages).edges⟩).Perm
      (messages.map Message.id ++ [-1]) := by
  have hplaced : (((buildMessageTree messages).roots ++ [-1]) ++
      (buildMessageTree messages).edges.map Prod.snd).Perm
        (messages.map Message.id ++ [-1]) := by
    have h1 : (((buildMessageTree messages).roots ++ [-1]) ++
        (buildMessageTree messages).edges.map Prod.snd).Perm
          (((buildMessageTree messages).roots ++
            (buildMessageTree messages).edges.map Prod.snd) ++ [-1]) := by
      rw [List.append_assoc, List.append_assoc]
      exact List.Perm.append_left _ List.perm_append_comm
    exact h1.trans ((placed_perm messages).append (List.Perm.refl [-1]))
  refine List.Perm.trans ?_ hplaced
  apply dfsList_perm (posId messages) (messages.length + 1)
  · exact hplaced.nodup_iff.mpr (ids_sentinel_nodup hnd hs)
  · exact built_edges_forward messages hnd hfl
  · intro e he
    exact hplaced.mem_iff.mpr (List.mem_append_left _ (built_edge_fst_mem he))
  · intro v hv
    exact posId_bound hs v (hplaced.mem_iff.mp hv)
  · have := placed_count messages
    simp only [List.length_append, List.length_singleton]
    omega

/-- Grafting the sentinel as a child of an existing message preserves
completeness. -/
theorem graft_edge_perm (messages : List Message) (lm : Message)
    (hnd : (messages.map Message.id).Nodup)
    (hs : (-1 : Int) ∉ messages.map Message.id)
    (hfl : forwardLinksB (patchedMessages messages) = true)
    (hlm : lm ∈ messages) :
    (forestNodes ⟨(buildMessageTree messages).roots,
        (buildMessageTree messages).edges ++ [(lm.id, -1)]⟩).Perm
      (messages.map Message.id ++ [-1]) := by
  have hlmid : lm.id ∈ messages.map Message.id := List.mem_map_of_mem Message.id hlm
  have hsnd : ((buildMessageTree messages).edges ++ [(lm.id, -1)]).map Prod.snd
      = (buildMessageTree messages).edges.map Prod.snd ++ [-1] := by
    simp
  have hplaced : ((buildMessageTree messages).roots ++
      ((buildMessageTree messages).edges ++ [(lm.id, -1)]).map Prod.snd).Perm
        (messages.map Message.id ++ [-1]) := by
    rw [hsnd, ← List.append_assoc]
    exact (placed_perm messages).append (List.Perm.refl [-1])
  refine List.Perm.trans ?_ hplaced
  apply dfsList_perm (posId messages) (messages.length + 1)
  · exact hplaced.nodup_iff.mpr (ids_sentinel_nodup hnd hs)
  · intro e he
    rcases List.mem_append.mp he with h | h
    · exact built_edges_forward messages hnd hfl e h
    · simp only [List.mem_singleton] at h
      subst h
      show posId messages lm.id < posId messages (-1)
      rw [posId_neg_one messages hs]
      exact posId_lt_of_mem hlmid
  · intro e he
    rcases List.mem_append.mp he with h | h
    · exact hplaced.mem_iff.mpr (List.mem_append_left _ (built_edge_fst_mem h))
    · simp only [List.mem_singleton] at h
      subst h
      exact hplaced.mem_iff.mpr (List.mem_append_left _ hlmid)
  · intro v hv
    exact posId_bound hs v (hplaced.mem_iff.mp hv)
  · have := placed_count messages
    simp only [List.length_append, List.length_singleton]
    omega

/-- C1 (amended) — for every input message list whose ids are pairwise
distinct, contain no `-1` (the reserved sentinel), and whose resolved reply
links (after the inference pass) each point to an earlier message, the
forest returned by the tree builder contains exactly one node per input
message plus exactly one additional ephemeral streaming node if and only if
streaming is active.  (Without the no-cycle restriction the unrestricted
claim is refuted by `messageTree_complete_counterexample`: a message in a
`reply_to_id` cycle is lost from the forest.) -/
theorem messageTree_complete (messages : List Message) (active : Bool) (content : String)
    (hnd : (messages.map Message.id).Nodup)
    (hs : (-1 : Int) ∉ messages.map Message.id)
    (hfl : forwardLinksB (patchedMessages messages) = true) :
    (forestNodes (messageTree messages active content)).Perm
      (messages.map Message.id ++ (if active then [-1] else [])) := by
  cases active with
  | false =>
      rw [show messageTree messages false content = buildMessageTree messages from rfl]
      simp only [Bool.false_eq_true, if_false, List.append_nil]
      refine List.Perm.trans ?_ (placed_perm messages)
      apply dfsList_perm (posId messages) (messages.length + 1)
      · exact (placed_perm messages).nodup_iff.mpr hnd
      · exact built_edges_forward messages hnd hfl
      · intro e he
        exact (placed_perm messages).mem_iff.mpr (built_edge_fst_mem he)
      · intro v hv
        have hvids := (placed_perm messages).mem_iff.mp hv
        have := posId_lt_of_mem hvids
        omega
      · have := placed_count messages
        omega
  | true =>
      rcases messageTree_true_shape messages content with h | ⟨lm, hl, h⟩
      · rw [h]
        simpa using graft_root_perm messages hnd hs hfl
      · rw [h]
        simpa using graft_edge_perm messages lm hnd hs hfl (mem_of_getLast?_eq_some hl)

/-- C1 (counterexample) — on the single message whose `reply_to_id` is its
own id (no streaming), the returned forest is empty: the message is lost,
refuting completeness for arbitrary inputs. -/
theorem messageTree_complete_counterexample :
    ¬ (forestNodes (messageTree [cycMsg] false "")).Perm
        ([cycMsg].map Message.id ++ (if false then [-1] else [])) := by
  intro h
  have hlen := h.length_eq
  rw [show forestNodes (messageTree [cycMsg] false "") = [] from rfl] at hlen
  simp at hlen

/-- C1 witness: the amended completeness theorem applied at a concrete
streaming input. -/
theorem messageTree_complete_witness :
    (forestNodes (messageTree
      [{ id := 1, thread_id := 1, role := Role.user, content := "Hi", created_at := 0 },
       { id := 2, thread_id := 1, role := Role.assistant, content := "Hello",
         created_at := 1 }] true "Thinking")).Perm
      ([{ id := 1, thread_id := 1, role := Role.user, content := "Hi", created_at := 0 },
        { id := 2, thread_id := 1, role := Role.assistant, content := "Hello",
          created_at := 1 }].map Message.id ++ (if true then [-1] else [])) :=
  messageTree_complete _ true _ (by decide) (by decide) (by decide)

/-! ### Claim C3: streaming attachment target -/

/-- A user question followed by an assistant answer that explicitly replies
to it. -/
def exC3 : List Message :=
  [{ id := 1, thread_id := 1, role := Role.user, content := "q", created_at := 0 },
   { id := 2, thread_id := 1, role := Role.assistant, content := "a", created_at := 1,
     reply_to_id := some 1 }]

/-- C3 (counterexample) — the last message (id 2) has `reply_to_id = 1` and
is not itself the target, yet the active streaming node is attached under
id 2 (the last message itself), not under the target id 1, refuting the
claimed attachment rule. -/
theorem streaming_attach_counterexample :
    (-1 : Int) ∉ childrenOf (messageTree exC3 true "s").edges 1 ∧
      (-1 : Int) ∈ childrenOf (messageTree exC3 true "s").edges 2 := by
  decide

/-- C3 (amended) — when the chronologically last message has a truthy
`reply_to_id`, the active streaming node is attached as a child of the node
whose id equals the *last message's own id* (located by depth-first search,
falling back to an extra root when the search fails); it is never attached
under the `reply_to_id` target when that target differs from the last
message's id. -/
theorem streaming_attach_under_last (messages : List Message) (content : String)
    (lm : Message) (hl : messages.getLast? = some lm)
    (ht : truthyId lm.reply_to_id = true)
    (hs : (-1 : Int) ∉ messages.map Message.id) :
    (messageTree messages true content =
      (if findInForest (buildMessageTree messages).edges (messages.length + 1)
          (buildMessageTree messages).roots lm.id
       then ⟨(buildMessageTree messages).roots,
             (buildMessageTree messages).edges ++ [(lm.id, -1)]⟩
       else ⟨(buildMessageTree messages).roots ++ [-1],
             (buildMessageTree messages).edges⟩)) ∧
    (∀ r, lm.reply_to_id = some r → r ≠ lm.id →
      (-1 : Int) ∉ childrenOf (messageTree messages true content).edges r) := by
  constructor
  · by_cases hf : findInForest (buildMessageTree messages).edges (messages.length + 1)
        (buildMessageTree messages).roots lm.id = true
    · simp [messageTree, hl, ht, hf]
    · simp [messageTree, hl, ht, hf]
  · intro r _ hrne hmem
    have hbase : ∀ e ∈ (buildMessageTree messages).edges, e.2 ≠ (-1 : Int) := by
      intro e he hee
      have := built_edge_snd_mem he
      rw [hee] at this
      exact hs this
    by_cases hf : findInForest (buildMessageTree messages).edges (messages.length + 1)
        (buildMessageTree messages).roots lm.id = true
    · rw [show messageTree messages true content =
          ⟨(buildMessageTree messages).roots,
           (buildMessageTree messages).edges ++ [(lm.id, -1)]⟩ from by
            simp [messageTree, hl, ht, hf]] at hmem
      have hedge := mem_childrenOf_iff.mp hmem
      rcases List.mem_append.mp hedge with h | h
      · exact hbase _ h rfl
      · simp only [List.mem_singleton, Prod.mk.injEq] at h
        exact hrne h.1
    · rw [show messageTree messages true content =
          ⟨(buildMessageTree messages).roots ++ [-1],
           (buildMessageTree messages).edges⟩ from by
            simp [messageTree, hl, ht, hf]] at hmem
      exact hbase _ (mem_childrenOf_iff.mp hmem) rfl

/-- C3 witness: the amended attachment rule applied at a concrete input. -/
theorem streaming_attach_under_last_witness :
    (messageTree exC3 true "s" =
      (if findInForest (buildMessageTree exC3).edges (exC3.length + 1)
          (buildMessageTree exC3).roots 2
       then ⟨(buildMessageTree exC3).roots, (buildMessageTree exC3).edges ++ [(2, -1)]⟩
       else ⟨(buildMessageTree exC3).roots ++ [-1], (buildMessageTree exC3).edges⟩)) ∧
    (∀ r, (some 1 : Option Int) = some r → r ≠ 2 →
      (-1 : Int) ∉ childrenOf (messageTree exC3 true "s").edges r) :=
  streaming_attach_under_last exC3 "s"
    { id := 2, thread_id := 1, role := Role.assistant, content := "a", created_at := 1,
      reply_to_id := some 1 }
    (by decide) (by decide) (by decide)

/-! ### Claim C10: streaming graft ignores the inference pass -/

/-- C10 — the streaming-graft decision reads only the *stored*
`reply_to_id` of the chronologically last message: when the last message is
an assistant message with no stored `reply_to_id` (even if the inference
pass gives it an inferred parent in the tree), an active streaming node is
appended as an additional root, the edge set is unchanged, and the sentinel
is nobody's child. -/
theorem streaming_root_when_no_stored_reply (messages : List Message) (content : String)
    (lm : Message) (hl : messages.getLast? = some lm)
    (_hrole : lm.role = Role.assistant)
    (hnr : lm.reply_to_id = none)
    (hs : (-1 : Int) ∉ messages.map Message.id) :
    (messageTree messages true content).roots = (buildMessageTree messages).roots ++ [-1] ∧
    (messageTree messages true content).edges = (buildMessageTree messages).edges ∧
    (-1 : Int) ∉ ((messageTree messages true content).edges.map Prod.snd) := by
  have ht : truthyId lm.reply_to_id = false := by
    rw [hnr]
    rfl
  have hshape : messageTree messages true content =
      ⟨(buildMessageTree messages).roots ++ [-1], (buildMessageTree messages).edges⟩ := by
    simp [messageTree, hl, ht]
  refine ⟨by rw [hshape], by rw [hshape], ?_⟩
  rw [hshape]
  intro hmem
  simp only [List.mem_map] at hmem
  obtain ⟨e, he, hee⟩ := hmem
  have := built_edge_snd_mem he
  rw [hee] at this
  exact hs this

/-- A user question followed by an assistant answer with no stored reply
link: the inference pass gives the assistant an inferred parent, yet the
streaming node still becomes a root. -/
def exC10 : List Message :=
  [{ id := 1, thread_id := 1, role := Role.user, content := "q", created_at := 0 },
   { id := 2, thread_id := 1, role := Role.assistant, content := "a", created_at := 1 }]

/-- C10 witness: the graft-as-root behaviour at a concrete input on which
the inference pass does assign the assistant an inferred parent. -/
theorem streaming_root_witness :
    (messageTree exC10 true "t").roots = (buildMessageTree exC10).roots ++ [-1] ∧
    (messageTree exC10 true "t").edges = (buildMessageTree exC10).edges ∧
    (-1 : Int) ∉ ((messageTree exC10 true "t").edges.map Prod.snd) :=
  streaming_root_when_no_stored_reply exC10 "t"
    { id := 2, thread_id := 1, role := Role.assistant, content := "a", created_at := 1 }
    (by decide) (by decide) (by decide) (by decide)

/-! ### Claim C8: the reply-link inference pass -/

/-- A user message followed by an assistant message whose *stored*
`reply_to_id` is `0`. -/
def exC8 : List Message :=
  [{ id := 5, thread_id := 1, role := Role.user, content := "u", created_at := 0 },
   { id := 6, thread_id := 1, role := Role.assistant, content := "a", created_at := 1,
     reply_to_id := some 0 }]

/-- C8 (counterexample) — the message at position 1 *has* a stored
`reply_to_id` (namely `0`), so by the claim it must keep it verbatim; the
inference pass nevertheless rewrites it to the predecessor's id `5`,
because the source tests `!msg.reply_to_id` and `0` is falsy. -/
theorem inference_verbatim_counterexample :
    (exC8[1]?.map Message.reply_to_id = some (some 0)) ∧
      ((patchedMessages exC8)[1]?.map Message.reply_to_id = some (some 5)) := by
  decide

/-- C8 (amended) — a message at position `i` with role assistant and a
*falsy* stored `reply_to_id` (absent or `0`) whose predecessor has role user
receives the predecessor's id as its working `reply_to_id`; every other
message keeps its stored `reply_to_id`, or absence of one, verbatim. -/
theorem inference_pass_characterization (messages : List Message) (i : Nat) (m : Message)
    (hm : messages[i]? = some m) :
    (∀ prev, messages[i - 1]? = some prev → i ≠ 0 → m.role = Role.assistant →
        truthyId m.reply_to_id = false → prev.role = Role.user →
        (patchedMessages messages)[i]? = some { m with reply_to_id := some prev.id }) ∧
    ((m.role ≠ Role.assistant ∨ truthyId m.reply_to_id = true ∨ i = 0 ∨
        (∀ p, messages[i - 1]? = some p → p.role ≠ Role.user)) →
      (patchedMessages messages)[i]? = some m) := by
  constructor
  · intro prev hprev hi hrole hfalsy hpu
    rw [patchedMessages_get?, hm]
    show some (patchOne messages i m) = _
    congr 1
    unfold patchOne
    rw [if_pos (by simp [hrole, hfalsy, hi]), hprev]
    simp [hpu]
  · intro hother
    rw [patchedMessages_get?, hm]
    show some (patchOne messages i m) = some m
    congr 1
    unfold patchOne
    rcases hother with h | h | h | h
    · rw [if_neg (by simp [h])]
    · rw [if_neg (by simp [h])]
    · rw [if_neg (by simp [h])]
    · by_cases hc : (m.role == Role.assistant && !truthyId m.reply_to_id && i != 0) = true
      · rw [if_pos hc]
        cases hp : messages[i - 1]? with
        | none => rfl
        | some p =>
            simp [h p hp]
      · rw [if_neg hc]

/-- C8 witness: both halves of the amended characterization at concrete
inputs — the heuristic rewrites the assistant at position 1 of `exC10`, and
the user message at position 0 of `exC10` is kept verbatim. -/
theorem inference_pass_witness :
    (patchedMessages exC10)[1]? =
        some { id := 2, thread_id := 1, role := Role.assistant, content := "a",
               created_at := 1,
               reply_to_id := some 1 } ∧
      (patchedMessages exC10)[0]? =
        some { id := 1, thread_id := 1, role := Role.user, content := "q",
               created_at := 0 } :=
  ⟨(inference_pass_characterization exC10 1
        { id := 2, thread_id := 1, role := Role.assistant, content := "a", created_at := 1 }
        (by decide)).1
      { id := 1, thread_id := 1, role := Role.user, content := "q", created_at := 0 }
      (by decide) (by decide) (by decide) (by decide) (by decide),
   (inference_pass_characterization exC10 0
        { id := 1, thread_id := 1, role := Role.user, content := "q", created_at := 0 }
        (by decide)).2 (Or.inl (by decide))⟩

/-! ### Claim C9: orphan promotion -/

/-- A user message followed by an assistant message whose stored
`reply_to_id` (`0`) matches no loaded id. -/
def exC9 : List Message :=
  [{ id := 1, thread_id := 1, role := Role.user, content := "u", created_at := 0 },
   { id := 2, thread_id := 1, role := Role.assistant, content := "a", created_at := 1,
     reply_to_id := some 0 }]

/-- C9 (counterexample) — message id 2 has `reply_to_id = 0`, which matches
no loaded message's id, yet it does *not* appear as a root: the falsy `0` is
replaced by the adjacency heuristic, making the message a child of id 1. -/
theorem orphan_promotion_counterexample :
    (exC9[1]?.map Message.reply_to_id = some (some 0)) ∧
      hasId exC9 0 = false ∧
      (2 : Int) ∉ (buildMessageTree exC9).roots := by
  decide

/-- C9 (amended) — every message whose stored `reply_to_id` is *nonzero*
and matches no id of the loaded input set appears in the built forest as a
root (promoted, never dropped); the builder is a total function, so
malformed references cannot make it error.  (A stored `reply_to_id` of `0`
is treated as absent and may instead be rewritten by the adjacency
heuristic.) -/
theorem orphan_promoted (messages : List Message) (m : Message) (hm : m ∈ messages)
    (r : Int) (hr : m.reply_to_id = some r) (hr0 : r ≠ 0)
    (hdangling : hasId messages r = false) :
    m.id ∈ (buildMessageTree messages).roots := by
  obtain ⟨i, hgi⟩ := List.mem_iff_get.mp hm
  have hget : messages[i.val]? = some m := by
    rw [List.getElem?_eq_getElem i.isLt]
    exact congrArg some hgi
  have htruthy : truthyId m.reply_to_id = true := by
    rw [hr]
    simp [truthyId, hr0]
  have hpatch : (patchedMessages messages)[i.val]? = some m := by
    rw [patchedMessages_get?, hget]
    show some (patchOne messages i.val m) = some m
    congr 1
    unfold patchOne
    rw [if_neg (by simp [htruthy])]
  have hmem : m ∈ patchedMessages messages := by
    obtain ⟨hlt, hg⟩ := List.getElem?_eq_some_iff.mp hpatch
    rw [← hg]
    exact List.getElem_mem hlt
  apply mem_roots_of_unresolved messages m hmem
  unfold resolvedParent
  rw [if_neg]
  intro hcond
  have h2 := (Bool.and_eq_true _ _ |>.mp hcond).2
  rw [hr] at h2
  simp only [Option.getD_some] at h2
  rw [hasId_patched] at h2
  rw [h2] at hdangling
  exact absurd hdangling (by simp)

/-- A single assistant message with a dangling nonzero reply target. -/
def exC9w : List Message :=
  [{ id := 3, thread_id := 1, role := Role.assistant, content := "a", created_at := 0,
     reply_to_id := some 99 }]

/-- C9 witness: the amended orphan-promotion theorem at a concrete input. -/
theorem orphan_promoted_witness : (3 : Int) ∈ (buildMessageTree exC9w).roots :=
  orphan_promoted exC9w
    { id := 3, thread_id := 1, role := Role.assistant, content := "a", created_at := 0,
      reply_to_id := some 99 }
    (by decide) 99 (by decide) (by decide) (by decide)

/-! ### The stream reconciler (`App`): generation-failure transitions

`handleSendMessage` and `handleRetry` are embedded as atomic transitions of
the frontend state, parameterised by the outcome of the backend `invoke`
call (`ok = false` models a rejected initiating call).  The backend calls
issued by a handler are returned alongside the state, so "no automatic
retry" and "the transient buffer is never persisted" are statements about
that call list. -/

/-- The frontend state the reconciler manages. -/
structure AppState where
  messages : List Message
  isStreaming : Bool
  streamingContent : String
deriving DecidableEq, Repr

/-- The backend requests a handler can issue. -/
inductive BackendCall where
  | sendMessage (threadId : Int) (content : String) (replyToId : Option Int)
  | regenerateResponse (threadId : Int) (model : String)
deriving DecidableEq, Repr

/-- The `handleSendMessage` handler of `App` (Tauri path): append the optimistic user
message, enter streaming with a cleared buffer, issue the request; when the
call rejects, the catch handler sets `isStreaming` to `false`. -/
def handleSendMessage (activeThreadId : Option Int) (st : AppState) (content : String)
    (images : List String) (replyToId : Option Int) (nowId : Int) (nowTs : Nat)
    (ok : Bool) : AppState × List BackendCall :=
  if truthyId activeThreadId = false then (st, [])
  else
    let tid := activeThreadId.getD 0
    let tempMsg : Message :=
      { id := nowId, thread_id := tid, role := Role.user, content := content,
        images := images, created_at := nowTs, reply_to_id := replyToId }
    let st1 : AppState :=
      { messages := st.messages ++ [tempMsg], isStreaming := true, streamingContent := "" }
    if ok then (st1, [BackendCall.sendMessage tid content replyToId])
    else ({ st1 with isStreaming := false }, [BackendCall.sendMessage tid content replyToId])

/-- The `handleRetry` handler of `App`: optimistically remove a trailing assistant
message, enter streaming with a cleared buffer, issue the regenerate
request; when the call rejects, the catch handler sets `isStreaming` to
`false`. -/
def handleRetry (activeThreadId : Option Int) (st : AppState) (model : String)
    (ok : Bool) : AppState × List BackendCall :=
  if truthyId activeThreadId = false || st.isStreaming then (st, [])
  else
    let tid := activeThreadId.getD 0
    let msgs1 :=
      match st.messages.getLast? with
      | some lm => if lm.role == Role.assistant then st.messages.dropLast else st.messages
      | none => st.messages
    let st1 : AppState :=
      { messages := msgs1, isStreaming := true, streamingContent := "" }
    if ok then (st1, [BackendCall.regenerateResponse tid model])
    else ({ st1 with isStreaming := false }, [BackendCall.regenerateResponse tid model])

/-- C4 — when the initiating call of a generation request rejects, the
reconciler marks `active = false`, the transient buffer is empty (it was
cleared when the request was issued and nothing was appended), previously
persisted messages are untouched (the send path only appends the optimistic
user message; the retry path only removes the optimistic trailing assistant
message), and exactly one backend request was issued — no automatic retry
and no request carrying the transient buffer. -/
theorem generation_failure_safe (activeThreadId : Option Int) (st : AppState)
    (content : String) (images : List String) (replyToId : Option Int)
    (nowId : Int) (nowTs : Nat) (model : String)
    (hactive : truthyId activeThreadId = true) :
    ((handleSendMessage activeThreadId st content images replyToId nowId nowTs
        false).1.isStreaming = false ∧
      (handleSendMessage activeThreadId st content images replyToId nowId nowTs
        false).1.streamingContent = "" ∧
      st.messages <+: (handleSendMessage activeThreadId st content images replyToId
        nowId nowTs false).1.messages ∧
      (handleSendMessage activeThreadId st content images replyToId nowId nowTs
        false).2 = [BackendCall.sendMessage (activeThreadId.getD 0) content replyToId]) ∧
    (st.isStreaming = false →
      (handleRetry activeThreadId st model false).1.isStreaming = false ∧
      (handleRetry activeThreadId st model false).1.streamingContent = "" ∧
      (handleRetry activeThreadId st model false).1.messages.Sublist st.messages ∧
      (handleRetry activeThreadId st model false).2 =
        [BackendCall.regenerateResponse (activeThreadId.getD 0) model]) := by
  constructor
  · unfold handleSendMessage
    rw [if_neg (by simp [hactive])]
    refine ⟨rfl, rfl, ⟨_, rfl⟩, rfl⟩
  · intro hidle
    unfold handleRetry
    rw [if_neg (by simp [hactive, hidle])]
    refine ⟨rfl, rfl, ?_, rfl⟩
    cases hlast : st.messages.getLast? with
    | none => simp
    | some lm =>
        by_cases hrole : (lm.role == Role.assistant) = true
        · simp only [hrole, if_true]
          exact List.dropLast_sublist st.messages
        · simp only [hrole, if_false]
          exact List.Sublist.refl st.messages

/-- C4 witness: the failure transitions of both handlers at a concrete
state with one persisted message. -/
theorem generation_failure_safe_witness :
    (handleSendMessage (some 1) ⟨[], false, ""⟩ "hi" [] none 100 5
        false).1.isStreaming = false ∧
      (handleSendMessage (some 1) ⟨[], false, ""⟩ "hi" [] none 100 5
        false).1.streamingContent = "" ∧
      (handleSendMessage (some 1) ⟨[], false, ""⟩ "hi" [] none 100 5
        false).2 = [BackendCall.sendMessage 1 "hi" none] ∧
      (handleRetry (some 1) ⟨[], false, ""⟩ "m" false).1.isStreaming = false ∧
      (handleRetry (some 1) ⟨[], false, ""⟩ "m" false).2 =
        [BackendCall.regenerateResponse 1 "m"] := by
  have h := generation_failure_safe (some 1) ⟨[], false, ""⟩ "hi" [] none 100 5 "m"
    (by decide)
  exact ⟨h.1.1, h.1.2.1, h.1.2.2.2, (h.2 rfl).1, (h.2 rfl).2.2.2⟩

/-! ### The context assembler (`handleNewChat`)

The smart-context portion of `handleNewChat` is embedded as a pure function
of the configuration, the current state, and an abstract message-log fetch
(`fetch tid = none` models a rejected `invoke("get_messages")` for that
thread).  Fetch failures for individually configured threads are caught by
the per-thread `try`; a failure of the fallback fetch for the first
available thread propagates to the outer `catch`, which leaves the persona
prompt unchanged. -/

/-- Model of `arr.slice(-n)`: the chronological tail of at most `n` elements. -/
def lastN (l : List Message) (n : Nat) : List Message :=
  l.drop (l.length - n)

/-- Model of `m.role.toUpperCase()` on the two roles of the data model. -/
def roleUpper : Role → String
  | Role.user => "USER"
  | Role.assistant => "ASSISTANT"

/-- One transcript line: `ROLE-UPPERCASE: content`. -/
def renderLine (m : Message) : String :=
  roleUpper m.role ++ ": " ++ m.content

/-- The comparator of the `contextMessages.sort`: ascending `created_at`
(the source compares `new Date(...).getTime()` values; the sort is stable,
as is `mergeSort`). -/
def byCreatedAt (a b : Message) : Bool :=
  a.created_at ≤ b.created_at

/-- The candidate-pool selection of `handleNewChat`: configured source
threads take the last 5 messages of each successfully fetched log; else the
current thread's messages; else the full log of the first available thread
(where a fetch failure propagates, modelled by `none`); else an empty
pool. -/
def contextPool (sel : List Int) (activeThreadId : Option Int)
    (curMessages : List Message) (threads : List Thread)
    (fetch : Int → Option (List Message)) : Option (List Message) :=
  if sel.length > 0 then
    some (sel.flatMap (fun tid =>
      match fetch tid with
      | some msgs => lastN msgs 5
      | none => []))
  else if truthyId activeThreadId && decide (curMessages.length > 0) then
    some curMessages
  else
    match threads with
    | t :: _ => fetch t.id
    | [] => some []

/-- The system prompt `handleNewChat` passes to `create_thread`: the persona
prompt, extended with the sorted, capped, rendered context block when the
pool is non-empty; unchanged when the pool is empty or assembly aborted. -/
def newChatSystemPrompt (sel : List Int) (activeThreadId : Option Int)
    (curMessages : List Message) (threads : List Thread)
    (fetch : Int → Option (List Message)) (systemPrompt : Option String) :
    Option String :=
  match contextPool sel activeThreadId curMessages threads fetch with
  | none => systemPrompt
  | some ctx =>
      if ctx.length > 0 then
        let sorted := ctx.mergeSort byCreatedAt
        let recent := lastN sorted 20
        let contextStr := String.intercalate "\n" (recent.map renderLine)
        some ((systemPrompt.getD "") ++ "\n\n[CONTEXT FROM PREVIOUS SESSION]\n" ++
          contextStr ++ "\n[END CONTEXT]\n")
      else systemPrompt

theorem lastN_length_le (l : List Message) (n : Nat) : (lastN l n).length ≤ n := by
  unfold lastN
  rw [List.length_drop]
  omega

theorem mergeSort_byCreatedAt_pairwise (l : List Message) :
    (l.mergeSort byCreatedAt).Pairwise (fun a b => a.created_at ≤ b.created_at) := by
  have h := @List.sorted_mergeSort _ byCreatedAt ?_ ?_ l
  · exact h.imp (fun hab => by simpa [byCreatedAt] using hab)
  · intro a b c hab hbc
    simp only [byCreatedAt, decide_eq_true_eq] at *
    omega
  · intro a b
    simp only [byCreatedAt]
    rcases Nat.le_total a.created_at b.created_at with h | h <;> simp [h]

theorem lastN_pairwise (l : List Message) (n : Nat)
    (h : l.Pairwise (fun a b => a.created_at ≤ b.created_at)) :
    (lastN l n).Pairwise (fun a b => a.created_at ≤ b.created_at) :=
  h.sublist (List.drop_sublist _ l)

theorem flatMap_lastN_length_le (sel : List Int) (logOf : Int → List Message) :
    (sel.flatMap (fun tid => lastN (logOf tid) 5)).length ≤ 5 * sel.length := by
  induction sel with
  | nil => simp
  | cons t rest ih =>
      rw [List.flatMap_cons, List.length_append, List.length_cons]
      have := lastN_length_le (logOf t) 5
      omega

/-! ### Claim C5: configured source threads -/

/-- C5 — with configured source thread ids (all fetches succeeding), the
candidate pool is the concatenation of the last 5 messages of each
configured thread (hence at most `5 × |sel|` messages pre-cap); the merged
pool is sorted ascending by `created_at`, truncated to its last 20
messages, and rendered one `ROLE: content` line per message joined by
newlines after the persona prompt. -/
theorem context_with_sources (sel : List Int) (activeThreadId : Option Int)
    (curMessages : List Message) (threads : List Thread)
    (logOf : Int → List Message) (systemPrompt : Option String)
    (hsel : sel ≠ []) :
    contextPool sel activeThreadId curMessages threads (fun t => some (logOf t)) =
        some (sel.flatMap (fun tid => lastN (logOf tid) 5)) ∧
      (sel.flatMap (fun tid => lastN (logOf tid) 5)).length ≤ 5 * sel.length ∧
      (lastN ((sel.flatMap (fun tid => lastN (logOf tid) 5)).mergeSort byCreatedAt)
          20).length ≤ 20 ∧
      (lastN ((sel.flatMap (fun tid => lastN (logOf tid) 5)).mergeSort byCreatedAt)
          20).Pairwise (fun a b => a.created_at ≤ b.created_at) ∧
      ((sel.flatMap (fun tid => lastN (logOf tid) 5)).length > 0 →
        newChatSystemPrompt sel activeThreadId curMessages threads
            (fun t => some (logOf t)) systemPrompt =
          some ((systemPrompt.getD "") ++ "\n\n[CONTEXT FROM PREVIOUS SESSION]\n" ++
            String.intercalate "\n"
              ((lastN ((sel.flatMap (fun tid => lastN (logOf tid) 5)).mergeSort
                byCreatedAt) 20).map renderLine) ++ "\n[END CONTEXT]\n")) := by
  have hlen : sel.length > 0 := List.length_pos.mpr hsel
  have hpool : contextPool sel activeThreadId curMessages threads
      (fun t => some (logOf t)) =
        some (sel.flatMap (fun tid => lastN (logOf tid) 5)) := by
    unfold contextPool
    rw [if_pos hlen]
  refine ⟨hpool, flatMap_lastN_length_le sel logOf, lastN_length_le _ 20,
    lastN_pairwise _ 20 (mergeSort_byCreatedAt_pairwise _), ?_⟩
  intro hpos
  unfold newChatSystemPrompt
  rw [hpool]
  simp only [if_pos hpos]

/-- Three source threads of 8 messages each (the spec's worked example). -/
def exLog : Int → List Message := fun tid =>
  (List.range 8).map (fun k =>
    { id := tid * 100 + Int.ofNat k, thread_id := tid, role := Role.user, content := "m",
      created_at := tid.toNat * 100 + k })

/-- C5 witness: the assembler applied to 3 source threads of 8 messages
each — 15 messages pre-cap (≤ 5 × 3), at most 20 after the global cap,
sorted ascending. -/
theorem context_with_sources_witness :
    contextPool [1, 2, 3] (some 9) [] [] (fun t => some (exLog t)) =
        some ([1, 2, 3].flatMap (fun tid => lastN (exLog tid) 5)) ∧
      ([1, 2, 3].flatMap (fun tid => lastN (exLog tid) 5)).length ≤ 5 * 3 ∧
      (lastN (([1, 2, 3].flatMap (fun tid => lastN (exLog tid) 5)).mergeSort byCreatedAt)
          20).length ≤ 20 ∧
      (lastN (([1, 2, 3].flatMap (fun tid => lastN (exLog tid) 5)).mergeSort byCreatedAt)
          20).Pairwise (fun a b => a.created_at ≤ b.created_at) := by
  have h := context_with_sources [1, 2, 3] (some 9) [] [] exLog none (by decide)
  exact ⟨h.1, h.2.1, h.2.2.1, h.2.2.2.1⟩

/-! ### Claim C6: the fallback chain -/

/-- C6 — with no configured source threads, selection follows the strict
priority of the source: a truthy active thread with messages contributes
all of them; otherwise the full log of the first available thread is
fetched; otherwise no context is produced and the persona prompt is left
unchanged; any non-empty pool is still sorted and capped at its last 20
messages before rendering. -/
theorem context_fallback_chain (activeThreadId : Option Int)
    (curMessages : List Message) (threads : List Thread)
    (fetch : Int → Option (List Message)) (systemPrompt : Option String) :
    (truthyId activeThreadId = true → curMessages ≠ [] →
      contextPool [] activeThreadId curMessages threads fetch = some curMessages) ∧
    ((truthyId activeThreadId = false ∨ curMessages = []) →
      ∀ t ts, threads = t :: ts →
        contextPool [] activeThreadId curMessages threads fetch = fetch t.id) ∧
    ((truthyId activeThreadId = false ∨ curMessages = []) → threads = [] →
      newChatSystemPrompt [] activeThreadId curMessages threads fetch systemPrompt
        = systemPrompt) ∧
    (∀ ctx, contextPool [] activeThreadId curMessages threads fetch = some ctx →
      ctx ≠ [] →
      newChatSystemPrompt [] activeThreadId curMessages threads fetch systemPrompt =
        some ((systemPrompt.getD "") ++ "\n\n[CONTEXT FROM PREVIOUS SESSION]\n" ++
          String.intercalate "\n"
            ((lastN (ctx.mergeSort byCreatedAt) 20).map renderLine) ++
          "\n[END CONTEXT]\n")) := by
  refine ⟨?_, ?_, ?_, ?_⟩
  · intro hact hcur
    unfold contextPool
    rw [if_neg (by simp)]
    rw [if_pos (by simp [hact, List.length_pos.mpr hcur])]
  · intro hfall t ts hth
    unfold contextPool
    rw [if_neg (by simp)]
    rw [if_neg ?_, hth]
    rcases hfall with h | h
    · simp [h]
    · simp [h]
  · intro hfall hth
    unfold newChatSystemPrompt contextPool
    subst hth
    rw [if_neg (by simp)]
    rcases hfall with h | h
    · simp [h]
    · simp [h]
  · intro ctx hctx hne
    unfold newChatSystemPrompt
    rw [hctx]
    simp only [if_pos (List.length_pos.mpr hne)]

/-- A two-message log for the single available thread. -/
def exFallbackLog : List Message :=
  [{ id := 11, thread_id := 4, role := Role.user, content := "q1", created_at := 3 },
   { id := 12, thread_id := 4, role := Role.assistant, content := "a1", created_at := 7 }]

/-- C6 witness: the fallback chain at concrete inputs — all three
priorities and the capped rendering. -/
theorem context_fallback_chain_witness :
    contextPool [] (some 9) exFallbackLog [] (fun _ => none) = some exFallbackLog ∧
      contextPool [] none []
          [{ id := 4, title := "t", created_at := 0 }]
          (fun _ => some exFallbackLog) = some exFallbackLog ∧
      newChatSystemPrompt [] none [] [] (fun _ => none) (some "base") = some "base" ∧
      newChatSystemPrompt [] (some 9) exFallbackLog [] (fun _ => none) (some "base") =
        some ("base" ++ "\n\n[CONTEXT FROM PREVIOUS SESSION]\n" ++
          String.intercalate "\n"
            ((lastN (exFallbackLog.mergeSort byCreatedAt) 20).map renderLine) ++
          "\n[END CONTEXT]\n") := by
  refine ⟨?_, ?_, ?_, ?_⟩
  · exact (context_fallback_chain (some 9) exFallbackLog [] (fun _ => none)
      (some "base")).1 (by decide) (by decide)
  · exact (context_fallback_chain none []
      [{ id := 4, title := "t", created_at := 0 }] (fun _ => some exFallbackLog)
      (some "base")).2.1 (Or.inl (by decide)) _ _ rfl
  · exact (context_fallback_chain none [] [] (fun _ => none) (some "base")).2.2.1
      (Or.inl (by decide)) rfl
  · exact (context_fallback_chain (some 9) exFallbackLog [] (fun _ => none)
      (some "base")).2.2.2 exFallbackLog
        ((context_fallback_chain (some 9) exFallbackLog [] (fun _ => none)
          (some "base")).1 (by decide) (by decide)) (by decide)

/-! ### Claim C7: partial multi-source failure -/

theorem flatMap_fetch_filter (sel : List Int) (fetch : Int → Option (List Message)) :
    (sel.flatMap (fun tid =>
        match fetch tid with
        | some msgs => lastN msgs 5
        | none => [])) =
      (sel.filter (fun t => (fetch t).isSome)).flatMap
        (fun tid => lastN ((fetch tid).getD []) 5) := by
  induction sel with
  | nil => rfl
  | cons t rest ih =>
      cases hf : fetch t with
      | some msgs =>
          simp only [List.flatMap_cons, List.filter_cons, hf, Option.isSome_some, if_true]
          rw [ih]
          simp [hf]
      | none =>
          simp only [List.flatMap_cons, List.filter_cons, hf, Option.isSome_none]
          rw [ih]
          simp

/-- C7 — with configured source threads of which some fetches fail, the
assembler does not raise (the pool is always produced): each failing
thread's contribution is omitted and the pool equals the concatenated
5-message tails of the threads whose fetches succeeded; a non-empty partial
pool is still sorted, capped, and rendered into the prompt. -/
theorem context_partial_failure (sel : List Int) (activeThreadId : Option Int)
    (curMessages : List Message) (threads : List Thread)
    (fetch : Int → Option (List Message)) (systemPrompt : Option String)
    (hsel : sel ≠ []) :
    contextPool sel activeThreadId curMessages threads fetch =
        some ((sel.filter (fun t => (fetch t).isSome)).flatMap
          (fun tid => lastN ((fetch tid).getD []) 5)) ∧
      (((sel.filter (fun t => (fetch t).isSome)).flatMap
          (fun tid => lastN ((fetch tid).getD []) 5)).length > 0 →
        newChatSystemPrompt sel activeThreadId curMessages threads fetch systemPrompt =
          some ((systemPrompt.getD "") ++ "\n\n[CONTEXT FROM PREVIOUS SESSION]\n" ++
            String.intercalate "\n"
              ((lastN (((sel.filter (fun t => (fetch t).isSome)).flatMap
                  (fun tid => lastN ((fetch tid).getD []) 5)).mergeSort byCreatedAt)
                20).map renderLine) ++ "\n[END CONTEXT]\n")) := by
  have hpool : contextPool sel activeThreadId curMessages threads fetch =
      some ((sel.filter (fun t => (fetch t).isSome)).flatMap
        (fun tid => lastN ((fetch tid).getD []) 5)) := by
    unfold contextPool
    rw [if_pos (List.length_pos.mpr hsel), flatMap_fetch_filter]
  refine ⟨hpool, ?_⟩
  intro hpos
  unfold newChatSystemPrompt
  rw [hpool]
  simp only [if_pos hpos]

/-- C7 witness: thread 2's fetch fails; threads 1 and 3 still contribute
their tails and the assembly completes. -/
theorem context_partial_failure_witness :
    contextPool [1, 2, 3] (some 9) [] []
        (fun t => if t == 2 then none else some (exLog t)) =
      some (([1, 2, 3].filter
          (fun t => ((fun t => if t == 2 then none else some (exLog t)) t).isSome)).flatMap
        (fun tid =>
          lastN (((fun t => if t == 2 then none else some (exLog t)) tid).getD []) 5)) :=
  (context_partial_failure [1, 2, 3] (some 9) [] []
    (fun t => if t == 2 then none else some (exLog t)) none (by decide)).1
